/-
Verification of the EDM-generator engine (src/main.py) against its
natural-language specification.

Conventions of the shallow embedding:
* Python floats carrying *time* values (durations, rates, beat positions)
  are modelled as rationals `ℚ`, so that the arithmetic the code performs
  is exact; floats carrying *signal* samples are modelled as reals `ℝ`.
* `numpy` arrays are Lean `List`s; elementwise operations are `List.map`
  and `List.zipWith`; slice assignment of a matching-length block is
  `setSlice`.
* Python `int(x)` (truncation toward zero) is `pyInt` on `ℚ` and `pyIntR`
  on `ℝ`.
* Fallible operations (`list.index` on a missing element) return `Option`.
-/
import Mathlib

open List

/-! ## Generic helpers shared by the embedded functions -/

/-- Python `int(q)`: truncation toward zero on rationals. -/
def pyInt (q : ℚ) : ℤ := if 0 ≤ q then ⌊q⌋ else ⌈q⌉

/-- Python `int(x)`: truncation toward zero on reals. -/
noncomputable def pyIntR (x : ℝ) : ℤ := if 0 ≤ x then ⌊x⌋ else ⌈x⌉

/-- `np.linspace a b n`: `n` evenly spaced points from `a` to `b` inclusive
(`n = 1` gives `[a]`, matching numpy). -/
noncomputable def linspace (a b : ℝ) (n : ℕ) : List ℝ :=
  (List.range n).map
    (fun i : ℕ => if n ≤ 1 then a else a + (b - a) * (i : ℝ) / ((n : ℝ) - 1))

/-- `np.cumsum`: running sums of a list. -/
def cumsum (l : List ℝ) : List ℝ :=
  (l.foldl (fun (p : ℝ × List ℝ) x => (p.1 + x, (p.1 + x) :: p.2)) (0, [])).2.reverse

/-- Numpy slice assignment `l[i : i + r.length] = r` (shapes must match and
be in bounds for the numpy original; on that domain this is exact). -/
def setSlice (l : List ℝ) (i : ℕ) (r : List ℝ) : List ℝ :=
  l.take i ++ r ++ l.drop (i + r.length)

theorem setSlice_length (l : List ℝ) (i : ℕ) (r : List ℝ)
    (hi : i + r.length ≤ l.length) : (setSlice l i r).length = l.length := by
  simp only [setSlice, List.length_append, List.length_take, List.length_drop]
  omega

theorem mem_setSlice {x : ℝ} {l : List ℝ} {i : ℕ} {r : List ℝ}
    (hx : x ∈ setSlice l i r) : x ∈ l ∨ x ∈ r := by
  simp only [setSlice, List.mem_append] at hx
  rcases hx with (h | h) | h
  · exact Or.inl ((List.take_sublist i l).mem h)
  · exact Or.inr h
  · exact Or.inl ((List.drop_sublist (i + r.length) l).mem h)

theorem cumsum_length (l : List ℝ) : (cumsum l).length = l.length := by
  suffices h : ∀ (l : List ℝ) (a : ℝ) (acc : List ℝ),
      (l.foldl (fun (p : ℝ × List ℝ) x => (p.1 + x, (p.1 + x) :: p.2)) (a, acc)).2.length
        = l.length + acc.length by
    simpa [cumsum] using h l 0 []
  intro l
  induction l with
  | nil => intro a acc; simp
  | cons x t ih =>
    intro a acc
    simp only [List.foldl_cons, ih, List.length_cons]
    omega

/-- Every element of `np.linspace a b n` is a convex combination of the two
endpoints, hence lies in any interval containing both. -/
theorem linspace_mem_Icc {a b lo hi : ℝ} (ha : lo ≤ a) (ha' : a ≤ hi)
    (hb : lo ≤ b) (hb' : b ≤ hi) {n : ℕ} {x : ℝ} (hx : x ∈ linspace a b n) :
    lo ≤ x ∧ x ≤ hi := by
  simp only [linspace, List.mem_map, List.mem_range] at hx
  obtain ⟨i, hi_lt, rfl⟩ := hx
  by_cases h1 : n ≤ 1
  · simp [h1, ha, ha']
  · simp only [h1, if_false]
    have hn : (1:ℝ) ≤ (n : ℝ) - 1 := by
      have : (2:ℕ) ≤ n := by omega
      have : (2:ℝ) ≤ (n : ℝ) := by exact_mod_cast this
      linarith
    have hpos : (0:ℝ) < (n : ℝ) - 1 := by linarith
    set t : ℝ := (i : ℝ) / ((n : ℝ) - 1) with ht
    have hti : (0:ℝ) ≤ t := div_nonneg (by positivity) hpos.le
    have hts : t ≤ 1 := by
      rw [ht, div_le_one hpos]
      have h2 : (i : ℝ) + 1 ≤ (n : ℝ) := by exact_mod_cast hi_lt
      linarith
    have hx : a + (b - a) * (i : ℝ) / ((n : ℝ) - 1) = a + (b - a) * t := by
      rw [ht]; ring
    rw [hx]
    constructor
    · nlinarith
    · nlinarith

/-- The elements of `linspace 0 1 n` lie in `[0, 1]`. -/
theorem linspace01_mem {n : ℕ} {x : ℝ} (hx : x ∈ linspace 0 1 n) :
    0 ≤ x ∧ x ≤ 1 :=
  linspace_mem_Icc le_rfl zero_le_one zero_le_one le_rfl hx

theorem linspace_length (a b : ℝ) (n : ℕ) : (linspace a b n).length = n := by
  rw [linspace, List.length_map, List.length_range]

/-! ## Pitch Resolver (`note_to_freq`, src/main.py lines 12–31)

Note tokens are modelled as `List Char` (a Python string is a sequence of
characters).  `NOTES.index` raises `ValueError` on a missing name, modelled
by `Option`; a resolved pitch is recorded symbolically as the integer `t`
with frequency `440 · 2^(t/12)` so that the parser stays computable. -/

def NOTES : List (List Char) :=
  [['C'], ['C', '#'], ['D'], ['D', '#'], ['E'], ['F'], ['F', '#'],
   ['G'], ['G', '#'], ['A'], ['A', '#'], ['B']]

/-- The literal token `"rest"`. -/
def restTok : List Char := ['r', 'e', 's', 't']

/-- A resolved pitch: silence (0 Hz) or `440 · 2^(twelfths/12)` Hz. -/
inductive Freq
  | silent
  | pitched (twelfths : ℤ)
  deriving DecidableEq

/-- The frequency in Hz denoted by a `Freq`. -/
noncomputable def Freq.toReal : Freq → ℝ
  | .silent => 0
  | .pitched t => 440 * (2 : ℝ) ^ ((t : ℝ) / 12)

/-- The semitone index of a note name (src/main.py lines 21–29): the flat
branch is guarded by `len(note_name) > 1 and note_name[1].lower() == 'b'`
and computes `(NOTES.index(base) - 1) % 12`; otherwise
`NOTES.index(note_name.upper())`.  A missing name (`ValueError`) is `none`. -/
def semitonesOf (name : List Char) : Option ℤ :=
  if 1 < name.length ∧ (name.getD 1 'A').toLower = 'b' then
    (NOTES.findIdx? (fun s => s = [(name.getD 0 'A').toUpper])).map
      (fun i => ((i : ℤ) - 1) % 12)
  else
    (NOTES.findIdx? (fun s => s = name.map Char.toUpper)).map
      (fun i => (i : ℤ))

/-- Embedding of `note_to_freq` (src/main.py lines 15–31).  Faithful to the
Python control flow: the "rest"/empty check, the trailing-digit octave
(default 4), the name being the token minus a trailing digit.  The result
`440 * 2**((octave-4) + (semitones-9)/12)` is returned as
`Freq.pitched (12*(octave-4) + (semitones-9))`. -/
def note_to_freq (note : List Char) : Option Freq :=
  if note = restTok ∨ note = [] then some Freq.silent
  else
    let c := note.getLastD 'A'
    let octave : ℤ := if c.isDigit then (c.toNat : ℤ) - 48 else 4
    let name := if c.isDigit then note.dropLast else note
    (semitonesOf name).map (fun s => Freq.pitched (12 * (octave - 4) + (s - 9)))

/-- The resolved frequency in Hz (`none` = `InvalidNote`). -/
noncomputable def resolve (note : List Char) : Option ℝ :=
  (note_to_freq note).map Freq.toReal

theorem Freq.toReal_pitched_zero : Freq.toReal (.pitched 0) = 440 := by
  norm_num [Freq.toReal]

/-- Raising the symbolic exponent by 12 twelfths (one octave) doubles the
frequency. -/
theorem Freq.toReal_pitched_add_twelve (t : ℤ) :
    Freq.toReal (.pitched (t + 12)) = 2 * Freq.toReal (.pitched t) := by
  simp only [Freq.toReal]
  have h : ((t + 12 : ℤ) : ℝ) / 12 = (t : ℝ) / 12 + 1 := by
    push_cast; ring
  rw [h, Real.rpow_add (by norm_num : (0:ℝ) < 2), Real.rpow_one]
  ring

/-- On a token `nm ++ [c]` whose last character is a digit, `note_to_freq`
parses octave `c - '0'` and name `nm`. -/
theorem note_to_freq_concat_digit (nm : List Char) (c : Char)
    (hc : c.isDigit = true) :
    note_to_freq (nm ++ [c]) =
      (semitonesOf nm).map
        (fun s => Freq.pitched (12 * (((c.toNat : ℤ) - 48) - 4) + (s - 9))) := by
  have hne : ¬(nm ++ [c] = restTok ∨ nm ++ [c] = []) := by
    rintro (h | h)
    · have hct : c = 't' := by
        have h1 := congrArg (fun l => List.getLastD l 'A') h
        simpa [restTok, List.getLastD_concat] using h1
      rw [hct] at hc
      simp at hc
    · simp at h
  rw [note_to_freq, if_neg hne]
  simp [List.getLastD_concat, hc, List.dropLast_concat]

/-- C3: the Pitch Resolver maps "A4" to exactly 440 Hz, maps "rest" and the
empty string to 0 Hz, and for every valid note token raising the octave
digit by one exactly doubles the resolved frequency. -/
theorem claim_C3 :
    resolve ['A', '4'] = some 440 ∧
    resolve restTok = some 0 ∧
    resolve [] = some 0 ∧
    ∀ (nm : List Char) (c c' : Char) (x : ℝ),
      c.isDigit = true → c'.isDigit = true → c'.toNat = c.toNat + 1 →
      resolve (nm ++ [c]) = some x →
      resolve (nm ++ [c']) = some (2 * x) := by
  refine ⟨?_, ?_, ?_, ?_⟩
  · have h : note_to_freq ['A', '4'] = some (.pitched 0) := by decide
    rw [resolve, h, Option.map_some']
    rw [Freq.toReal_pitched_zero]
  · have h : note_to_freq restTok = some .silent := by decide
    rw [resolve, h, Option.map_some']
    rfl
  · have h : note_to_freq [] = some .silent := by decide
    rw [resolve, h, Option.map_some']
    rfl
  · intro nm c c' x hc hc' hsucc hx
    rw [resolve, note_to_freq_concat_digit nm c hc] at hx
    rw [resolve, note_to_freq_concat_digit nm c' hc']
    cases hs : semitonesOf nm with
    | none => rw [hs] at hx; simp at hx
    | some s =>
      rw [hs] at hx
      simp only [Option.map_some'] at hx ⊢
      have hxval : x = Freq.toReal (.pitched (12 * (((c.toNat : ℤ) - 48) - 4) + (s - 9))) := by
        injection hx with h
        exact h.symm
      have hoct : (c'.toNat : ℤ) = (c.toNat : ℤ) + 1 := by exact_mod_cast hsucc
      have hexp : 12 * (((c'.toNat : ℤ) - 48) - 4) + (s - 9)
          = (12 * (((c.toNat : ℤ) - 48) - 4) + (s - 9)) + 12 := by
        rw [hoct]; ring
      rw [hexp, Freq.toReal_pitched_add_twelve, hxval]

/-- Witness for C3's octave-doubling hypothesis: "A5" resolves to twice
the 440 Hz of "A4". -/
theorem claim_C3_witness : resolve (['A'] ++ ['5']) = some (2 * 440) := by
  exact claim_C3.2.2.2 ['A'] '4' '5' 440 (by decide) (by decide) (by decide)
    (by simpa using claim_C3.1)

/-- Each natural letter paired with the enharmonic sharp spelling one
semitone below it (`Cb = B`, `Db = C#`, …, `Bb = A#`). -/
def flatPairs : List (List Char × List Char) :=
  [(['C', 'b'], ['B']), (['D', 'b'], ['C', '#']), (['E', 'b'], ['D', '#']),
   (['F', 'b'], ['E']), (['G', 'b'], ['F', '#']), (['A', 'b'], ['G', '#']),
   (['B', 'b'], ['A', '#'])]

/-- The ten possible trailing octave digits. -/
def octaveDigits : List Char := ['0', '1', '2', '3', '4', '5', '6', '7', '8', '9']

/-- C4: every flat note token resolves to the enharmonic sharp one semitone
below the base letter, with the octave digit left unchanged; this includes
`Bb4 = A#4` (index 0 of the digit list is '0', pair index 6, digit index 4)
and the wrap across C, `Cb4 = B4` (pair index 0).  Stated for all seven
flat/sharp pairs at all ten octave digits. -/
theorem claim_C4 :
    ∀ (i : Fin 7) (j : Fin 10),
      note_to_freq ((flatPairs.getD i ([], [])).1 ++ [octaveDigits.getD j 'A'])
        = note_to_freq ((flatPairs.getD i ([], [])).2 ++ [octaveDigits.getD j 'A']) := by
  decide

/-! ## Envelope Shaper (`apply_envelope`, src/main.py lines 35–71)

Sample counts are kept as `ℤ` exactly as Python computes them
(`int(...)` can in principle be negative); they are converted with
`Int.toNat` where Python uses them as slice bounds.  The claims are stated
on the nonnegative parameter domain, where this agrees with Python's slice
semantics. -/

noncomputable def apply_envelope (wave : List ℝ) (duration fs : ℝ)
    (attack decay sustain release curve : ℝ) : List ℝ :=
  let n : ℤ := (wave.length : ℤ)
  if wave.length = 0 then wave
  else
    let t := linspace 0 duration wave.length
    let envelope := List.replicate wave.length (1 : ℝ)
    let attack_samples : ℤ := min (pyIntR (attack * fs)) n
    let decay_samples : ℤ := min (pyIntR (decay * fs)) (n - attack_samples)
    let release_samples : ℤ := min (pyIntR (release * fs)) n
    let sustain_level := sustain
    let envelope :=
      if 0 < attack_samples then
        setSlice envelope 0
          ((linspace 0 1 attack_samples.toNat).map (fun x => x ^ curve))
      else envelope
    let envelope :=
      if 0 < decay_samples then
        let start_decay := attack_samples
        let end_decay := min (start_decay + decay_samples) (n - release_samples)
        let actual_decay_samples := end_decay - start_decay
        if 0 < actual_decay_samples then
          setSlice envelope start_decay.toNat
            ((linspace 0 1 actual_decay_samples.toNat).map
              (fun x => 1 - x ^ curve * (1 - sustain_level)))
        else envelope
      else envelope
    let start_release := max 0 (n - release_samples)
    let envelope :=
      if 0 < release_samples ∧ start_release < n then
        let actual_release_samples := n - start_release
        setSlice envelope start_release.toNat
          ((linspace 0 1 actual_release_samples.toNat).map
            (fun x => sustain_level * (1 - x ^ curve)))
      else envelope
    List.zipWith (· * ·) wave envelope

theorem pyIntR_nonneg {x : ℝ} (hx : 0 ≤ x) : 0 ≤ pyIntR x := by
  rw [pyIntR, if_pos hx]
  exact Int.floor_nonneg.mpr hx

/-- Core length-preservation fact for the envelope shaper, for any
nonnegative attack/decay/release windows (including zero and
longer-than-the-buffer windows). -/
theorem apply_envelope_length (wave : List ℝ)
    (duration fs attack decay sustain release curve : ℝ)
    (ha : 0 ≤ attack * fs) (hr : 0 ≤ release * fs) :
    (apply_envelope wave duration fs attack decay sustain release curve).length
      = wave.length := by
  by_cases h0 : wave.length = 0
  · simp [apply_envelope, h0]
  · simp only [apply_envelope]
    rw [if_neg h0]
    have hA : 0 ≤ min (pyIntR (attack * fs)) (wave.length : ℤ) :=
      le_min (pyIntR_nonneg ha) (by exact_mod_cast Nat.zero_le _)
    have hA' : min (pyIntR (attack * fs)) (wave.length : ℤ) ≤ (wave.length : ℤ) :=
      min_le_right _ _
    have hR : 0 ≤ min (pyIntR (release * fs)) (wave.length : ℤ) :=
      le_min (pyIntR_nonneg hr) (by exact_mod_cast Nat.zero_le _)
    have hR' : min (pyIntR (release * fs)) (wave.length : ℤ) ≤ (wave.length : ℤ) :=
      min_le_right _ _
    set nZ : ℤ := (wave.length : ℤ) with hnZ
    set aS : ℤ := min (pyIntR (attack * fs)) nZ with haS
    set dS : ℤ := min (pyIntR (decay * fs)) (nZ - aS) with hdS
    set rS : ℤ := min (pyIntR (release * fs)) nZ with hrS
    set e1 := if 0 < aS then
        setSlice (List.replicate wave.length (1:ℝ)) 0
          ((linspace 0 1 aS.toNat).map (fun x => x ^ curve))
      else List.replicate wave.length (1:ℝ) with he1
    have he1len : e1.length = wave.length := by
      rw [he1]
      split_ifs with h
      · rw [setSlice_length]
        · exact List.length_replicate _ _
        · rw [List.length_map, linspace_length, List.length_replicate]
          omega
      · exact List.length_replicate _ _
    set e2 := if 0 < dS then
        if 0 < min (aS + dS) (nZ - rS) - aS then
          setSlice e1 aS.toNat
            ((linspace 0 1 (min (aS + dS) (nZ - rS) - aS).toNat).map
              (fun x => 1 - x ^ curve * (1 - sustain)))
        else e1
      else e1 with he2
    have he2len : e2.length = wave.length := by
      rw [he2]
      split_ifs with h h'
      · rw [setSlice_length]
        · exact he1len
        · rw [List.length_map, linspace_length, he1len]
          have : min (aS + dS) (nZ - rS) ≤ nZ := by omega
          omega
      · exact he1len
      · exact he1len
    set e3 := if 0 < rS ∧ max 0 (nZ - rS) < nZ then
        setSlice e2 (max 0 (nZ - rS)).toNat
          ((linspace 0 1 (nZ - max 0 (nZ - rS)).toNat).map
            (fun x => sustain * (1 - x ^ curve)))
      else e2 with he3
    have he3len : e3.length = wave.length := by
      rw [he3]
      split_ifs with h
      · rw [setSlice_length]
        · exact he2len
        · rw [List.length_map, linspace_length, he2len]
          omega
      · exact he2len
    rw [List.length_zipWith, he3len, min_self]

/-- C5: for every input buffer and every nonnegative
attack/decay/release window (including all zero and windows exceeding the
buffer length), the Envelope Shaper's output has exactly the input's
length, and a zero-length input buffer is returned unchanged. -/
theorem claim_C5 (wave : List ℝ)
    (duration fs attack decay sustain release curve : ℝ)
    (hat : 0 ≤ attack) (hrel : 0 ≤ release) (hfs : 0 ≤ fs) :
    (apply_envelope wave duration fs attack decay sustain release curve).length
        = wave.length ∧
    (wave = [] →
      apply_envelope wave duration fs attack decay sustain release curve = wave) := by
  constructor
  · exact apply_envelope_length wave duration fs attack decay sustain release curve
      (mul_nonneg hat hfs) (mul_nonneg hrel hfs)
  · intro hnil
    subst hnil
    simp [apply_envelope]

/-- Witness for C5 at a concrete three-sample buffer whose
attack+decay+release windows (4+8+4 samples at fs = 4) exceed its length. -/
theorem claim_C5_witness :
    (apply_envelope [1, 2, 3] 5 4 1 2 (1/2) 1 1).length = 3 := by
  have h := (claim_C5 [1, 2, 3] 5 4 1 2 (1/2) 1 1
    (by norm_num) (by norm_num) (by norm_num)).1
  simpa using h

/-! ## Voice Generators (src/main.py lines 117–131, 463–471)

`generate_kick` and `generate_bass` are embedded in full; every generator
sizes its buffer with `int(fs * duration)` (Python truncation), embedded as
`numSamples`. -/

/-- `int(fs * duration)`, the sample count every generator allocates. -/
def numSamples (fs d : ℚ) : ℕ := (pyInt (fs * d)).toNat

/-- Embedding of `generate_kick` (src/main.py lines 117–131). -/
noncomputable def generate_kick (duration fs : ℚ) (punch : ℝ) : List ℝ :=
  let t := linspace 0 (duration : ℝ) (numSamples fs duration)
  let freq := t.map (fun x => 60 + 200 * punch * Real.exp (-x / 0.05))
  let wave := (cumsum freq).map
    (fun s => Real.sin (2 * Real.pi * s / (fs : ℝ)))
  let click := t.map
    (fun x => Real.sin (2 * Real.pi * 150 * x) * Real.exp (-x / 0.002))
  let wave := List.zipWith (fun w c => w + c * 0.3) wave click
  let sub := t.map
    (fun x => Real.sin (2 * Real.pi * 50 * x) * Real.exp (-x / 0.15))
  let wave := List.zipWith (fun w s => w * 0.7 + s * 0.3) wave sub
  let wave := apply_envelope wave (duration : ℝ) (fs : ℝ) 0.002 0.2 0.1 0.1 2
  wave.map (fun x => Real.tanh (x * 1.2) * 0.9)

/-- Embedding of `generate_bass` (src/main.py lines 463–471). -/
noncomputable def generate_bass (freq : ℝ) (duration fs : ℚ) : List ℝ :=
  if freq = 0 then List.replicate (numSamples fs duration) 0
  else
    let t := linspace 0 (duration : ℝ) (numSamples fs duration)
    let wave := t.map (fun x => Real.sin (2 * Real.pi * freq * x))
    let wave := apply_envelope wave (duration : ℝ) (fs : ℝ) 0.01 0.1 0.6 0.1 1
    wave.map (fun x => x * 0.7)

/-- The master buffer `np.zeros(int(total_duration * fs))`
(src/main.py line 601). -/
noncomputable def masterBuffer (total_duration fs : ℚ) : List ℝ :=
  List.replicate (pyInt (total_duration * fs)).toNat 0

/-- Evaluating `pyInt` at a concrete nonnegative rational. -/
theorem pyInt_eq_of (q : ℚ) (z : ℤ) (h0 : 0 ≤ q) (h1 : (z : ℚ) ≤ q)
    (h2 : q < z + 1) : pyInt q = z := by
  rw [pyInt, if_pos h0]
  exact Int.floor_eq_iff.mpr ⟨h1, h2⟩

theorem generate_kick_length (duration fs : ℚ) (punch : ℝ) (hfs : 0 ≤ fs) :
    (generate_kick duration fs punch).length = numSamples fs duration := by
  have hfs' : (0:ℝ) ≤ (fs : ℝ) := by exact_mod_cast hfs
  simp only [generate_kick]
  rw [List.length_map,
    apply_envelope_length _ _ _ _ _ _ _ _ (mul_nonneg (by norm_num) hfs')
      (mul_nonneg (by norm_num) hfs'),
    List.length_zipWith, List.length_zipWith, List.length_map, List.length_map,
    List.length_map, cumsum_length, List.length_map, linspace_length]
  simp

theorem generate_bass_length (freq : ℝ) (duration fs : ℚ) (hfs : 0 ≤ fs) :
    (generate_bass freq duration fs).length = numSamples fs duration := by
  have hfs' : (0:ℝ) ≤ (fs : ℝ) := by exact_mod_cast hfs
  by_cases hf : freq = 0
  · simp [generate_bass, hf]
  · simp only [generate_bass, hf, if_false]
    rw [List.length_map,
      apply_envelope_length _ _ _ _ _ _ _ _ (mul_nonneg (by norm_num) hfs')
        (mul_nonneg (by norm_num) hfs'),
      List.length_map, linspace_length]

/-- C1-counterexample: at duration 0.27 s and sample rate 10 Hz the kick
generator's buffer has `int(2.7) = 2` samples, not `round(2.7) = 3` as the
claim states. -/
theorem claim_C1_counterexample :
    (generate_kick (27/100) 10 1).length ≠ (round ((27/100 : ℚ) * 10)).toNat := by
  rw [generate_kick_length _ _ _ (by norm_num), numSamples,
    pyInt_eq_of (10 * (27/100)) 2 (by norm_num) (by norm_num) (by norm_num),
    show round ((27/100 : ℚ) * 10) = 3 from by
      rw [round_eq]
      exact Int.floor_eq_iff.mpr (by norm_num)]
  decide

/-- C1 (amended): every embedded Voice Generator's output buffer has length
`int(fs × d)` (truncation toward zero, i.e. `⌊fs·d⌋` on the nonnegative
domain) — not `round(d × fs)` — and has length 0 when `d = 0`; the master
buffer allocated for a score has length `int(total_duration × fs)`. -/
theorem claim_C1 (d total fs : ℚ) (punch freq : ℝ) (hfs : 0 ≤ fs) :
    (generate_kick d fs punch).length = (pyInt (fs * d)).toNat ∧
    (d = 0 → (generate_kick d fs punch).length = 0) ∧
    (generate_bass freq d fs).length = (pyInt (fs * d)).toNat ∧
    (masterBuffer total fs).length = (pyInt (total * fs)).toNat := by
  refine ⟨generate_kick_length d fs punch hfs, ?_, generate_bass_length freq d fs hfs, ?_⟩
  · intro hd0
    rw [generate_kick_length d fs punch hfs, hd0]
    simp [numSamples, pyInt]
  · simp [masterBuffer]

/-- Witness for C1 at duration 1/2 s, sample rate 4 Hz: 2 samples. -/
theorem claim_C1_witness : (generate_kick (1/2) 4 1).length = 2 := by
  rw [(claim_C1 (1/2) 0 4 1 0 (by norm_num)).1,
    pyInt_eq_of (4 * (1/2)) 2 (by norm_num) (by norm_num) (by norm_num)]
  decide

/-! ## Timeline Renderer: drum-pattern tracks (src/main.py lines 614–649)

A hit is recorded with its placement time, its duration
(`beat_duration * 0.5`) and its amplitude scale (`velocity * volume`). -/

/-- A drum-pattern entry: a number, or any other Python value reduced to its
truthiness (`isinstance(·, (int, float))` is False ⇒ velocity `1 if truthy
else 0`; note Python `bool` IS an `int`, so `True`/`False` take the numeric
branch with values 1/0 — the same result). -/
inductive PatternEntry
  | num (v : ℚ)
  | truthy (b : Bool)
  deriving DecidableEq

/-- The velocity the loop assigns for an entry (src/main.py lines 619–622). -/
def PatternEntry.velocity : PatternEntry → ℚ
  | .num v => v
  | .truthy b => if b then 1 else 0

/-- One rendered drum hit: placement time, duration, amplitude scale. -/
structure DrumHit where
  time : ℚ
  dur : ℚ
  scale : ℚ
  deriving DecidableEq

/-- The hits the drum-track loop renders (src/main.py lines 614–649): for
`bar in range(num_bars)`, `beat in range(4)`, entry `pattern[beat %
pattern_len]`; a positive velocity yields a `beat_duration * 0.5` hit at
`current_time + bar * bar_duration + beat * beat_duration` scaled by
`velocity * volume` (with `bar_duration = beat_duration * 4`). -/
def drumHits (pattern : List PatternEntry) (num_bars : ℕ)
    (beat_duration current_time volume : ℚ) : List DrumHit :=
  (List.range num_bars).flatMap (fun bar =>
    (List.range 4).filterMap (fun beat =>
      let velocity := (pattern.getD (beat % pattern.length) (.num 0)).velocity
      if 0 < velocity then
        some ⟨current_time + (bar : ℚ) * (beat_duration * 4)
                + (beat : ℚ) * beat_duration,
              beat_duration * (1/2), velocity * volume⟩
      else none))

/-- The hit list C2 claims: global beat index `k ∈ [0, 4·B)` with cyclic
entry `pattern[k mod L]` (bar `k / 4`, within-bar beat `k mod 4`). -/
def drumHitsGlobalIdx (pattern : List PatternEntry) (num_bars : ℕ)
    (beat_duration current_time volume : ℚ) : List DrumHit :=
  (List.range (4 * num_bars)).filterMap (fun k =>
    let velocity := (pattern.getD (k % pattern.length) (.num 0)).velocity
    if 0 < velocity then
      some ⟨current_time + ((k / 4 : ℕ) : ℚ) * (beat_duration * 4)
              + ((k % 4 : ℕ) : ℚ) * beat_duration,
            beat_duration * (1/2), velocity * volume⟩
    else none)

/-- The corrected hit list: the cyclically indexed entry is
`pattern[(k mod 4) mod L]` — the pattern is re-read from its start in every
bar, it does not advance cyclically across bars. -/
def drumHitsPerBarIdx (pattern : List PatternEntry) (num_bars : ℕ)
    (beat_duration current_time volume : ℚ) : List DrumHit :=
  (List.range (4 * num_bars)).filterMap (fun k =>
    let velocity := (pattern.getD (k % 4 % pattern.length) (.num 0)).velocity
    if 0 < velocity then
      some ⟨current_time + ((k / 4 : ℕ) : ℚ) * (beat_duration * 4)
              + ((k % 4 : ℕ) : ℚ) * beat_duration,
            beat_duration * (1/2), velocity * volume⟩
    else none)

/-- C2-counterexample: a length-5 pattern whose only non-zero entry is at
index 4 over 2 bars: the code renders no hit at all (it only ever reads
indices 0–3), while the claimed global indexing would fire at global beat
4. -/
theorem claim_C2_counterexample :
    drumHits [.num 0, .num 0, .num 0, .num 0, .num 1] 2 1 0 1
      ≠ drumHitsGlobalIdx [.num 0, .num 0, .num 0, .num 0, .num 1] 2 1 0 1 := by
  decide

/-- C2 (amended): for every drum-pattern track over `B` bars with a pattern
of length `L`, the hits rendered are exactly those at global beat index
`k ∈ [0, 4·B)` whose cyclically indexed entry `pattern[(k mod 4) mod L]`
(the pattern restarts each bar; it is NOT `pattern[k mod L]`) is non-zero,
each a half-beat-duration hit at
`currentTime + (k/4)·barDuration + (k mod 4)·beatDuration` scaled by
`velocity × volume`. -/
theorem claim_C2 (pattern : List PatternEntry) (num_bars : ℕ)
    (beat_duration current_time volume : ℚ) :
    drumHits pattern num_bars beat_duration current_time volume
      = drumHitsPerBarIdx pattern num_bars beat_duration current_time volume := by
  induction num_bars with
  | zero => rfl
  | succ B ih =>
    have hL : drumHits pattern (B + 1) beat_duration current_time volume
        = drumHits pattern B beat_duration current_time volume
          ++ (List.range 4).filterMap (fun beat =>
            let velocity := (pattern.getD (beat % pattern.length) (.num 0)).velocity
            if 0 < velocity then
              some ⟨current_time + (B : ℚ) * (beat_duration * 4)
                      + (beat : ℚ) * beat_duration,
                    beat_duration * (1/2), velocity * volume⟩
            else none) := by
      simp only [drumHits, List.range_succ, List.flatMap_append, List.flatMap_cons,
        List.flatMap_nil, List.append_nil]
    have hR : drumHitsPerBarIdx pattern (B + 1) beat_duration current_time volume
        = drumHitsPerBarIdx pattern B beat_duration current_time volume
          ++ (List.range 4).filterMap (fun beat =>
            let velocity := (pattern.getD (beat % pattern.length) (.num 0)).velocity
            if 0 < velocity then
              some ⟨current_time + (B : ℚ) * (beat_duration * 4)
                      + (beat : ℚ) * beat_duration,
                    beat_duration * (1/2), velocity * volume⟩
            else none) := by
      simp only [drumHitsPerBarIdx]
      rw [show 4 * (B + 1) = 4 * B + 4 from by ring, List.range_add,
        List.filterMap_append]
      congr 1
      rw [List.filterMap_map]
      refine List.filterMap_congr ?_
      intro b hb
      have hb4 : b < 4 := List.mem_range.mp hb
      have h1 : (4 * B + b) % 4 = b := by omega
      have h2 : (4 * B + b) / 4 = B := by omega
      simp only [Function.comp, h1, h2]
    rw [hL, hR, ih]

/-! ## Timeline Renderer: melodic-track note loop (src/main.py lines 701–758)

The loop state is the position cursor `pos` (seconds into the section) and
the running index `idx`, which after `n` iterations is exactly `n`. -/

/-- Cyclic lookup `durations[idx % len(durations)]`. -/
def cyclicDur (durations : List ℚ) (idx : ℕ) : ℚ :=
  durations.getD (idx % durations.length) 0

/-- The position cursor after `n` iterations of the note loop: the cursor
advances by the *unclipped* `durations[idx % len] * beat_duration`
(src/main.py line 757). -/
def posAfter (durations : List ℚ) (beat_duration : ℚ) : ℕ → ℚ
  | 0 => 0
  | n + 1 => posAfter durations beat_duration n + cyclicDur durations n * beat_duration

/-- The note duration rendered at step `n`, clipped so that
`pos + note_dur` never exceeds the section duration (lines 710–713). -/
def clippedDur (durations : List ℚ) (beat_duration section_duration : ℚ)
    (n : ℕ) : ℚ :=
  let note_dur := cyclicDur durations n * beat_duration
  if section_duration < posAfter durations beat_duration n + note_dur then
    section_duration - posAfter durations beat_duration n
  else note_dur

theorem cyclicDur_mem {durations : List ℚ} (hne : durations ≠ []) (n : ℕ) :
    cyclicDur durations n ∈ durations := by
  have hlen : 0 < durations.length := List.length_pos.mpr hne
  have h : n % durations.length < durations.length := Nat.mod_lt _ hlen
  rw [cyclicDur, List.getD_eq_getElem _ _ h]
  exact List.getElem_mem h

/-- A nonempty list of positive rationals has a positive lower bound. -/
theorem exists_pos_lowerBound (durs : List ℚ) (hne : durs ≠ [])
    (hpos : ∀ d ∈ durs, 0 < d) : ∃ c, 0 < c ∧ ∀ d ∈ durs, c ≤ d := by
  induction durs with
  | nil => exact absurd rfl hne
  | cons d tl ih =>
    by_cases htl : tl = []
    · subst htl
      exact ⟨d, hpos d (List.mem_cons_self d []), by
        intro x hx
        rw [List.mem_singleton] at hx
        exact hx ▸ le_rfl⟩
    · obtain ⟨c, hc0, hc⟩ := ih htl (fun x hx => hpos x (List.mem_cons_of_mem d hx))
      refine ⟨min c d, lt_min hc0 (hpos d (List.mem_cons_self d tl)), ?_⟩
      intro x hx
      rcases List.mem_cons.mp hx with rfl | hx
      · exact min_le_right _ _
      · exact le_trans (min_le_left _ _) (hc x hx)

theorem posAfter_ge (durations : List ℚ) (beat_duration c : ℚ)
    (hne : durations ≠ []) (hc : ∀ d ∈ durations, c ≤ d)
    (hbd : 0 < beat_duration) (n : ℕ) :
    (n : ℚ) * (c * beat_duration) ≤ posAfter durations beat_duration n := by
  induction n with
  | zero => simp [posAfter]
  | succ n ih =>
    have hstep : c * beat_duration ≤ cyclicDur durations n * beat_duration :=
      mul_le_mul_of_nonneg_right (hc _ (cyclicDur_mem hne n)) hbd.le
    rw [posAfter]
    push_cast
    linarith

/-- C6: when all cyclic duration values are strictly positive (and the beat
duration is positive), the note loop terminates — some iteration count `n`
reaches `pos ≥ sectionDuration`; until then each rendered duration is
clipped so `pos + noteDuration ≤ sectionDuration`; and the cursor advances
by the unclipped `durations[i mod len] × beatDuration` each step. -/
theorem claim_C6 (durations : List ℚ) (beat_duration section_duration : ℚ)
    (hne : durations ≠ []) (hpos : ∀ d ∈ durations, 0 < d)
    (hbd : 0 < beat_duration) :
    (∃ n, section_duration ≤ posAfter durations beat_duration n) ∧
    (∀ n, posAfter durations beat_duration n < section_duration →
      posAfter durations beat_duration n
          + clippedDur durations beat_duration section_duration n
        ≤ section_duration) ∧
    (∀ n, posAfter durations beat_duration (n + 1)
        = posAfter durations beat_duration n
          + cyclicDur durations n * beat_duration) := by
  refine ⟨?_, ?_, fun n => rfl⟩
  · obtain ⟨c, hc0, hc⟩ := exists_pos_lowerBound durations hne hpos
    have hcb : 0 < c * beat_duration := mul_pos hc0 hbd
    obtain ⟨n, hn⟩ := exists_nat_ge (section_duration / (c * beat_duration))
    refine ⟨n, ?_⟩
    have h1 : section_duration ≤ (n : ℚ) * (c * beat_duration) := by
      rw [div_le_iff hcb] at hn
      linarith
    exact le_trans h1 (posAfter_ge durations beat_duration c hne hc hbd n)
  · intro n hlt
    rw [clippedDur]
    split_ifs with h
    · linarith
    · linarith

/-- Witness for C6: one-beat durations at 1 s/beat over a 2 s section. -/
theorem claim_C6_witness :
    (∃ n, (2:ℚ) ≤ posAfter [1] 1 n) ∧
    (∀ n, posAfter [1] 1 n < 2 →
      posAfter [1] 1 n + clippedDur [1] 1 2 n ≤ 2) ∧
    (∀ n, posAfter [1] 1 (n + 1) = posAfter [1] 1 n + cyclicDur [1] n * 1) :=
  claim_C6 [1] 1 2 (List.cons_ne_nil 1 [])
    (by
      intro d hd
      rw [List.mem_singleton] at hd
      rw [hd]
      norm_num)
    (by norm_num)

/-! ## Mastering Chain (src/main.py lines 800–809) -/

/-- `np.max(np.abs(l))` over the reals, with base 0 (the renderer only
applies it to a nonempty master buffer, where the two agree since every
`|x|` is nonnegative). -/
noncomputable def maxAbs (l : List ℝ) : ℝ := l.foldr (fun x m => max |x| m) 0

/-- Maximum absolute value of the quantized output samples. -/
def intMaxAbs (l : List ℤ) : ℤ := l.foldr (fun z m => max |z| m) 0

/-- Embedding of the mastering chain (src/main.py lines 800–809): soft clip
`tanh(x·0.7)·1.2`, peak-normalize to 0.95 unless the peak is ≤ 0, then
quantize by `int(x · 32767)` (float→int16 truncates toward zero; no sample
reaches the wrap-around range). -/
noncomputable def masteringChain (audio : List ℝ) : List ℤ :=
  let audio1 := audio.map (fun x => Real.tanh (x * 0.7) * 1.2)
  let max_amp := maxAbs audio1
  let audio2 := if 0 < max_amp then audio1.map (fun x => x / max_amp * 0.95)
    else audio1
  audio2.map (fun x => pyIntR (x * 32767))

theorem le_maxAbs {l : List ℝ} {x : ℝ} (hx : x ∈ l) : |x| ≤ maxAbs l := by
  induction l with
  | nil => cases hx
  | cons a tl ih =>
    rcases List.mem_cons.mp hx with rfl | hx
    · exact le_max_left _ _
    · exact le_trans (ih hx) (le_max_right _ _)

theorem maxAbs_nonneg (l : List ℝ) : 0 ≤ maxAbs l := by
  induction l with
  | nil => exact le_rfl
  | cons a tl ih => exact le_trans ih (le_max_right _ _)

/-- Truncation toward zero never increases the absolute value. -/
theorem abs_pyIntR_le (x : ℝ) : |((pyIntR x : ℤ) : ℝ)| ≤ |x| := by
  rw [pyIntR]
  split_ifs with h
  · have h0 : (0:ℝ) ≤ ((⌊x⌋ : ℤ) : ℝ) := by
      exact_mod_cast Int.floor_nonneg.mpr h
    rw [abs_of_nonneg h0, abs_of_nonneg h]
    exact Int.floor_le x
  · push_neg at h
    have hc : (⌈x⌉ : ℤ) ≤ 0 := Int.ceil_le.mpr (by exact_mod_cast h.le)
    have h0 : ((⌈x⌉ : ℤ) : ℝ) ≤ 0 := by exact_mod_cast hc
    rw [abs_of_nonpos h0, abs_of_nonpos h.le]
    have := Int.le_ceil x
    linarith

theorem intMaxAbs_le {l : List ℤ} {b : ℤ} (hb : 0 ≤ b)
    (h : ∀ z ∈ l, |z| ≤ b) : intMaxAbs l ≤ b := by
  induction l with
  | nil => exact hb
  | cons a tl ih =>
    refine max_le (h a (List.mem_cons_self a tl)) ?_
    exact ih (fun z hz => h z (List.mem_cons_of_mem a hz))

/-- Every quantized sample is bounded by 31129 in absolute value. -/
theorem masteringChain_sample_bound (audio : List ℝ) :
    ∀ z ∈ masteringChain audio, |z| ≤ 31129 := by
  intro z hz
  simp only [masteringChain, List.mem_map] at hz
  obtain ⟨x, hx2, rfl⟩ := hz
  have key : |x| ≤ 0.95 ∨ x = 0 := by
    by_cases hm : 0 < maxAbs (audio.map (fun y => Real.tanh (y * 0.7) * 1.2))
    · rw [if_pos hm, List.mem_map] at hx2
      obtain ⟨y, hy, rfl⟩ := hx2
      left
      have hyb : |y| ≤ maxAbs (audio.map (fun y => Real.tanh (y * 0.7) * 1.2)) :=
        le_maxAbs hy
      rw [abs_mul, abs_div]
      rw [abs_of_pos hm]
      have h1 : |y| / maxAbs (audio.map (fun y => Real.tanh (y * 0.7) * 1.2)) ≤ 1 :=
        (div_le_one hm).mpr hyb
      calc |y| / maxAbs (audio.map (fun y => Real.tanh (y * 0.7) * 1.2)) * |(0.95:ℝ)|
          ≤ 1 * |(0.95:ℝ)| := by
            apply mul_le_mul_of_nonneg_right h1 (abs_nonneg _)
        _ = 0.95 := by norm_num
    · rw [if_neg hm] at hx2
      right
      push_neg at hm
      have := le_maxAbs hx2
      have h0 : |x| ≤ 0 := le_trans this hm
      exact abs_eq_zero.mp (le_antisymm h0 (abs_nonneg x))
  have hxb : |x * 32767| ≤ 0.95 * 32767 := by
    rcases key with h | rfl
    · rw [abs_mul]
      have : |(32767:ℝ)| = 32767 := by norm_num
      rw [this]
      nlinarith
    · simp
      norm_num
  have hzb : |((pyIntR (x * 32767) : ℤ) : ℝ)| ≤ 0.95 * 32767 :=
    le_trans (abs_pyIntR_le _) hxb
  have : ((|pyIntR (x * 32767)| : ℤ) : ℝ) < 31129 := by
    rw [Int.cast_abs]
    calc |((pyIntR (x * 32767) : ℤ) : ℝ)| ≤ 0.95 * 32767 := hzb
      _ < 31129 := by norm_num
  have h2 : |pyIntR (x * 32767)| < (31129 : ℤ) := by exact_mod_cast this
  exact h2.le

/-- C7: after soft clip, peak normalization to 0.95 (skipped at zero peak)
and truncating quantization by 32767, the output's maximum absolute sample
value is at most `round(0.95 × 32767) = 31129`, for every (nonempty) master
buffer. -/
theorem claim_C7 (audio : List ℝ) (hne : audio ≠ []) :
    intMaxAbs (masteringChain audio) ≤ round ((0.95 * 32767 : ℚ)) := by
  have hr : round ((0.95 * 32767 : ℚ)) = 31129 := by
    rw [round_eq]
    exact Int.floor_eq_iff.mpr (by norm_num)
  rw [hr]
  exact intMaxAbs_le (by norm_num) (masteringChain_sample_bound audio)

/-- Witness for C7 on the one-sample buffer `[1]`. -/
theorem claim_C7_witness :
    intMaxAbs (masteringChain [1]) ≤ round ((0.95 * 32767 : ℚ)) :=
  claim_C7 [1] (List.cons_ne_nil 1 [])

/-! ## Sidechain Processor (`apply_sidechain`, src/main.py lines 400–441)

`gaussian_filter1d(envelope, sigma=30)` is scipy's truncated Gaussian
correlation: radius `int(4.0 * 30 + 0.5) = 120`, kernel
`exp(-x²/(2·30²))` for `x ∈ [-120, 120]` normalized to sum 1, applied with
`mode='reflect'` boundary handling. -/

/-- Kernel radius `int(truncate * sigma + 0.5)` at `sigma = 30`,
`truncate = 4.0`. -/
def gaussRadius : ℕ := 120

/-- The unnormalized Gaussian kernel values. -/
noncomputable def gaussRaw : List ℝ :=
  (List.range (2 * gaussRadius + 1)).map
    (fun i : ℕ => Real.exp (-(((i : ℝ) - (gaussRadius : ℝ)) ^ 2) / (2 * 30 ^ 2)))

/-- The normalized Gaussian kernel (sums to 1). -/
noncomputable def gaussWeights : List ℝ := gaussRaw.map (fun w => w / gaussRaw.sum)

/-- scipy `mode='reflect'` boundary folding `(d c b a | a b c d | d c b a)`
of an arbitrary integer index into `[0, len)`. -/
def reflectIdx (len : ℕ) (i : ℤ) : ℕ :=
  let m := (i % (2 * (len : ℤ))).toNat
  if m < len then m else 2 * len - 1 - m

/-- `gaussian_filter1d(l, sigma=30)`. -/
noncomputable def gaussianSmooth (l : List ℝ) : List ℝ :=
  (List.range l.length).map (fun i : ℕ =>
    ((List.range (2 * gaussRadius + 1)).map (fun k : ℕ =>
      gaussWeights.getD k 0
        * l.getD (reflectIdx l.length ((i : ℤ) + (k : ℤ) - (gaussRadius : ℤ))) 0)).sum)

/-- The attack window length chosen by style (lines 404–412). -/
def attackTimeOf (style : String) : ℚ :=
  if style = "pump" then 0.005 else if style = "duck" then 0.01 else 0.02

/-- The release window length chosen by style, from
`beat_duration = 60 / tempo` (lines 402–412). -/
def releaseTimeOf (tempo : ℚ) (style : String) : ℚ :=
  let beat_duration := 60 / tempo
  if style = "pump" then beat_duration * 0.25
  else if style = "duck" then beat_duration * 0.4
  else beat_duration * 0.15

/-- The "subtle" style halves the strength (line 413). -/
def effectiveStrength (strength : ℝ) (style : String) : ℝ :=
  if style = "pump" ∨ style = "duck" then strength else strength * 0.5

/-- One kick trigger's mutation of the ducking envelope (lines 417–436):
an attack ramp from the envelope's current value (1 at the buffer start)
down to `1 - strength`, then an exponential release
`1 - (1 - (1 - strength)) · e^(-5t)` back toward 1, both clamped to the
buffer. -/
noncomputable def sidechainStep (n : ℤ) (fs attack_time release_time : ℚ)
    (strength : ℝ) (env : List ℝ) (kick_time : ℚ) : List ℝ :=
  let attack_start := pyInt (kick_time * fs)
  let attack_samples := pyInt (attack_time * fs)
  let release_samples := pyInt (release_time * fs)
  if attack_start < n then
    let attack_end := min (attack_start + attack_samples) n
    let env1 :=
      if attack_start < attack_end then
        setSlice env attack_start.toNat
          (linspace
            (if 0 < attack_start then env.getD attack_start.toNat 0 else 1)
            (1 - strength) (attack_end - attack_start).toNat)
      else env
    let release_start := attack_end
    let release_end := min (release_start + release_samples) n
    if release_start < release_end then
      setSlice env1 release_start.toNat
        ((linspace 0 1 (release_end - release_start).toNat).map
          (fun t => 1 - (1 - (1 - strength)) * Real.exp (-5 * t)))
    else env1
  else env

/-- The raw (pre-smoothing) ducking envelope: all ones, mutated once per
kick trigger (lines 415–436). -/
noncomputable def sidechainEnvelope (audioLen : ℕ) (kick_times : List ℚ)
    (fs attack_time release_time : ℚ) (strength : ℝ) : List ℝ :=
  kick_times.foldl
    (sidechainStep (audioLen : ℤ) fs attack_time release_time strength)
    (List.replicate audioLen 1)

/-- Embedding of `apply_sidechain` (src/main.py lines 400–441). -/
noncomputable def apply_sidechain (audio : List ℝ) (kick_times : List ℚ)
    (fs tempo : ℚ) (strength : ℝ) (style : String) : List ℝ :=
  let envelope := sidechainEnvelope audio.length kick_times fs
    (attackTimeOf style) (releaseTimeOf tempo style)
    (effectiveStrength strength style)
  List.zipWith (· * ·) audio (gaussianSmooth envelope)

theorem gaussRaw_length : gaussRaw.length = 2 * gaussRadius + 1 := by
  rw [gaussRaw, List.length_map, List.length_range]

theorem gaussWeights_length : gaussWeights.length = 2 * gaussRadius + 1 := by
  rw [gaussWeights, List.length_map, gaussRaw_length]

theorem gaussRaw_sum_pos : 0 < gaussRaw.sum := by
  refine List.sum_pos _ ?_ ?_
  · intro x hx
    rw [gaussRaw, List.mem_map] at hx
    obtain ⟨i, _, rfl⟩ := hx
    exact Real.exp_pos _
  · rw [gaussRaw]
    simp [gaussRadius]

theorem gaussWeights_nonneg {w : ℝ} (hw : w ∈ gaussWeights) : 0 ≤ w := by
  rw [gaussWeights, List.mem_map] at hw
  obtain ⟨v, hv, rfl⟩ := hw
  have hv0 : 0 < v := by
    rw [gaussRaw, List.mem_map] at hv
    obtain ⟨i, _, rfl⟩ := hv
    exact Real.exp_pos _
  exact (div_nonneg hv0.le gaussRaw_sum_pos.le)

/-- Summing `l.getD k 0` over `k < l.length` gives the sum of `l`. -/
theorem sum_range_getD (l : List ℝ) :
    ((List.range l.length).map (fun k => l.getD k 0)).sum = l.sum := by
  induction l with
  | nil => rfl
  | cons a tl ih =>
    rw [List.length_cons, List.range_succ_eq_map, List.map_cons, List.map_map,
      List.sum_cons]
    have h : ((List.range tl.length).map
        ((fun k => (a :: tl).getD k 0) ∘ Nat.succ)).sum
        = ((List.range tl.length).map (fun k => tl.getD k 0)).sum := by
      refine congrArg _ (List.map_congr_left ?_)
      intro k _
      rfl
    rw [h, ih]
    rfl

theorem gaussWeights_sum : gaussWeights.sum = 1 := by
  rw [gaussWeights]
  have h : gaussRaw.map (fun w => w / gaussRaw.sum)
      = gaussRaw.map (fun w => id w * (gaussRaw.sum)⁻¹) := by
    refine List.map_congr_left ?_
    intro w _
    rw [id, div_eq_mul_inv]
  rw [h, List.sum_map_mul_right, List.map_id]
  exact mul_inv_cancel₀ (ne_of_gt gaussRaw_sum_pos)

theorem reflectIdx_lt (len : ℕ) (hpos : 0 < len) (i : ℤ) :
    reflectIdx len i < len := by
  rw [reflectIdx]
  have h2 : (0:ℤ) < 2 * (len : ℤ) := by positivity
  have hnn : 0 ≤ i % (2 * (len : ℤ)) := Int.emod_nonneg i (ne_of_gt h2)
  have hlt : i % (2 * (len : ℤ)) < 2 * (len : ℤ) := Int.emod_lt_of_pos i h2
  have hm : (i % (2 * (len : ℤ))).toNat < 2 * len := by omega
  split_ifs with h
  · exact h
  · omega

theorem getD_replicate_one {n i : ℕ} (h : i < n) :
    (List.replicate n (1:ℝ)).getD i 0 = 1 := by
  rw [List.getD_eq_getElem _ _ (by simpa using h)]
  exact List.getElem_replicate _ _

/-- Gaussian smoothing fixes the all-ones envelope: the kernel is a convex
combination. -/
theorem gaussianSmooth_replicate_one (n : ℕ) :
    gaussianSmooth (List.replicate n (1:ℝ)) = List.replicate n 1 := by
  rw [gaussianSmooth, List.length_replicate]
  refine List.eq_replicate.mpr ⟨by rw [List.length_map, List.length_range], ?_⟩
  intro b hb
  rw [List.mem_map] at hb
  obtain ⟨i, hi, rfl⟩ := hb
  rw [List.mem_range] at hi
  have hn : 0 < n := Nat.pos_of_ne_zero (by rintro rfl; exact Nat.not_lt_zero i hi)
  have hone : ∀ k ∈ List.range (2 * gaussRadius + 1),
      gaussWeights.getD k 0 * (List.replicate n (1:ℝ)).getD
        (reflectIdx n ((i : ℤ) + (k : ℤ) - (gaussRadius : ℤ))) 0
      = gaussWeights.getD k 0 := by
    intro k _
    rw [getD_replicate_one (reflectIdx_lt n hn _), mul_one]
  rw [List.map_congr_left hone]
  have hlen : (List.range (2 * gaussRadius + 1)) = List.range gaussWeights.length := by
    rw [gaussWeights_length]
  rw [hlen, sum_range_getD, gaussWeights_sum]

theorem zipWith_mul_replicate_one (l : List ℝ) :
    List.zipWith (· * ·) l (List.replicate l.length 1) = l := by
  induction l with
  | nil => rfl
  | cons a tl ih =>
    rw [List.length_cons, List.replicate_succ, List.zipWith_cons_cons, mul_one, ih]

/-- C8: with an empty kick-trigger list the Sidechain Processor is an exact
identity — the all-ones gain envelope is invariant under the Gaussian
smoothing, so the input buffer is returned unchanged for every buffer,
tempo, strength and style. -/
theorem claim_C8 (audio : List ℝ) (fs tempo : ℚ) (strength : ℝ)
    (style : String) :
    apply_sidechain audio [] fs tempo strength style = audio := by
  rw [apply_sidechain, sidechainEnvelope, List.foldl_nil,
    gaussianSmooth_replicate_one, zipWith_mul_replicate_one]

theorem pyInt_nonneg {q : ℚ} (h : 0 ≤ q) : 0 ≤ pyInt q := by
  rw [pyInt, if_pos h]
  exact Int.floor_nonneg.mpr h

/-- The release-curve values `1 - (1 - (1 - s)) · e^(-5t)`, `t ∈ [0, 1]`,
lie in `[1 - s, 1]` for `0 ≤ s`. -/
theorem release_curve_mem {s t : ℝ} (hs0 : 0 ≤ s) (ht0 : 0 ≤ t) (ht1 : t ≤ 1) :
    1 - s ≤ 1 - (1 - (1 - s)) * Real.exp (-5 * t) ∧
    1 - (1 - (1 - s)) * Real.exp (-5 * t) ≤ 1 := by
  have he1 : Real.exp (-5 * t) ≤ 1 := Real.exp_le_one_iff.mpr (by nlinarith)
  have he0 : 0 < Real.exp (-5 * t) := Real.exp_pos _
  constructor
  · nlinarith
  · nlinarith

/-- One sidechain step keeps the envelope's length and keeps every gain in
`[1 - s, 1]`. -/
theorem sidechainStep_preserves (n : ℕ) (fs attack_time release_time : ℚ)
    (s : ℝ) (env : List ℝ) (kick_time : ℚ)
    (hs0 : 0 ≤ s) (hfs : 0 ≤ fs) (hat : 0 ≤ attack_time) (hkt : 0 ≤ kick_time)
    (hlen : env.length = n) (hmem : ∀ g ∈ env, 1 - s ≤ g ∧ g ≤ 1) :
    (sidechainStep (n : ℤ) fs attack_time release_time s env kick_time).length
        = n ∧
    ∀ g ∈ sidechainStep (n : ℤ) fs attack_time release_time s env kick_time,
      1 - s ≤ g ∧ g ≤ 1 := by
  have has0 : 0 ≤ pyInt (kick_time * fs) := pyInt_nonneg (mul_nonneg hkt hfs)
  have hasamp : 0 ≤ pyInt (attack_time * fs) := pyInt_nonneg (mul_nonneg hat hfs)
  by_cases h1 : pyInt (kick_time * fs) < (n : ℤ)
  · simp only [sidechainStep, if_pos h1]
    set as : ℤ := pyInt (kick_time * fs) with has
    set ae : ℤ := min (as + pyInt (attack_time * fs)) (n : ℤ) with hae
    have hae_le : ae ≤ (n : ℤ) := min_le_right _ _
    have hae0 : 0 ≤ ae := le_min (by omega) (by exact_mod_cast Nat.zero_le n)
    set env1 := if as < ae then
        setSlice env as.toNat
          (linspace (if 0 < as then env.getD as.toNat 0 else 1) (1 - s)
            (ae - as).toNat)
      else env with henv1
    have hstep1 : env1.length = n ∧ ∀ g ∈ env1, 1 - s ≤ g ∧ g ≤ 1 := by
      by_cases h2 : as < ae
      · rw [henv1, if_pos h2]
        have hv0 : 1 - s ≤ (if 0 < as then env.getD as.toNat 0 else 1) ∧
            (if 0 < as then env.getD as.toNat 0 else 1) ≤ 1 := by
          by_cases h3 : 0 < as
          · rw [if_pos h3]
            have hlt : as.toNat < env.length := by omega
            rw [List.getD_eq_getElem _ _ hlt]
            exact hmem _ (List.getElem_mem hlt)
          · rw [if_neg h3]
            exact ⟨by linarith, le_rfl⟩
        constructor
        · rw [setSlice_length _ _ _ (by rw [linspace_length]; omega)]
          exact hlen
        · intro g hg
          rcases mem_setSlice hg with hg | hg
          · exact hmem g hg
          · exact linspace_mem_Icc hv0.1 hv0.2 le_rfl (by linarith) hg
      · rw [henv1, if_neg h2]
        exact ⟨hlen, hmem⟩
    by_cases h4 : ae < min (ae + pyInt (release_time * fs)) (n : ℤ)
    · rw [if_pos h4]
      constructor
      · rw [setSlice_length _ _ _
          (by rw [List.length_map, linspace_length, hstep1.1]; omega)]
        exact hstep1.1
      · intro g hg
        rcases mem_setSlice hg with hg | hg
        · exact hstep1.2 g hg
        · rw [List.mem_map] at hg
          obtain ⟨t, ht, rfl⟩ := hg
          obtain ⟨ht0, ht1⟩ := linspace01_mem ht
          exact release_curve_mem hs0 ht0 ht1
    · rw [if_neg h4]
      exact hstep1
  · simp only [sidechainStep, if_neg h1]
    exact ⟨hlen, hmem⟩

/-- The full pre-smoothing envelope stays in `[1 - s, 1]`. -/
theorem sidechainEnvelope_bounds (audioLen : ℕ) (kick_times : List ℚ)
    (fs attack_time release_time : ℚ) (s : ℝ)
    (hs0 : 0 ≤ s) (hfs : 0 ≤ fs) (hat : 0 ≤ attack_time)
    (hk : ∀ t ∈ kick_times, 0 ≤ t) :
    (sidechainEnvelope audioLen kick_times fs attack_time release_time s).length
        = audioLen ∧
    ∀ g ∈ sidechainEnvelope audioLen kick_times fs attack_time release_time s,
      1 - s ≤ g ∧ g ≤ 1 := by
  rw [sidechainEnvelope]
  have main : ∀ (ks : List ℚ), (∀ t ∈ ks, 0 ≤ t) → ∀ (env : List ℝ),
      env.length = audioLen → (∀ g ∈ env, 1 - s ≤ g ∧ g ≤ 1) →
      (ks.foldl (sidechainStep (audioLen : ℤ) fs attack_time release_time s)
          env).length = audioLen ∧
      ∀ g ∈ ks.foldl (sidechainStep (audioLen : ℤ) fs attack_time release_time s)
          env, 1 - s ≤ g ∧ g ≤ 1 := by
    intro ks
    induction ks with
    | nil => intro _ env h1 h2; exact ⟨h1, h2⟩
    | cons k tl ih =>
      intro hks env h1 h2
      rw [List.foldl_cons]
      have hstep := sidechainStep_preserves audioLen fs attack_time release_time
        s env k hs0 hfs hat (hks k (List.mem_cons_self k tl)) h1 h2
      exact ih (fun t ht => hks t (List.mem_cons_of_mem k ht)) _ hstep.1 hstep.2
  refine main kick_times hk _ (List.length_replicate _ _) ?_
  intro g hg
  rw [List.eq_of_mem_replicate hg]
  exact ⟨by linarith, le_rfl⟩

theorem gaussWeights_getD_nonneg (k : ℕ) : 0 ≤ gaussWeights.getD k 0 := by
  by_cases hk : k < gaussWeights.length
  · rw [List.getD_eq_getElem _ _ hk]
    exact gaussWeights_nonneg (List.getElem_mem hk)
  · rw [List.getD_eq_default _ _ (by omega)]

/-- Gaussian smoothing is a convex combination: it maps a buffer with
values in `[lo, hi]` to a buffer with values in `[lo, hi]`. -/
theorem gaussianSmooth_bounds (l : List ℝ) (lo hi : ℝ)
    (hmem : ∀ g ∈ l, lo ≤ g ∧ g ≤ hi) :
    (gaussianSmooth l).length = l.length ∧
    ∀ g ∈ gaussianSmooth l, lo ≤ g ∧ g ≤ hi := by
  constructor
  · rw [gaussianSmooth, List.length_map, List.length_range]
  · intro g hg
    rw [gaussianSmooth, List.mem_map] at hg
    obtain ⟨i, hi_mem, rfl⟩ := hg
    rw [List.mem_range] at hi_mem
    have hn : 0 < l.length := by omega
    have hval : ∀ k ∈ List.range (2 * gaussRadius + 1),
        lo ≤ l.getD (reflectIdx l.length ((i : ℤ) + (k : ℤ) - (gaussRadius : ℤ))) 0
        ∧ l.getD (reflectIdx l.length ((i : ℤ) + (k : ℤ) - (gaussRadius : ℤ))) 0
          ≤ hi := by
      intro k _
      have hltIdx : reflectIdx l.length ((i : ℤ) + (k : ℤ) - (gaussRadius : ℤ))
          < l.length := reflectIdx_lt l.length hn _
      rw [List.getD_eq_getElem _ _ hltIdx]
      exact hmem _ (List.getElem_mem hltIdx)
    have hsum1 : ((List.range (2 * gaussRadius + 1)).map
        (fun k => gaussWeights.getD k 0)).sum = 1 := by
      have h : List.range (2 * gaussRadius + 1) = List.range gaussWeights.length := by
        rw [gaussWeights_length]
      rw [h, sum_range_getD, gaussWeights_sum]
    constructor
    · have hlow : ((List.range (2 * gaussRadius + 1)).map
          (fun k => gaussWeights.getD k 0 * lo)).sum
          ≤ ((List.range (2 * gaussRadius + 1)).map
            (fun k => gaussWeights.getD k 0
              * l.getD (reflectIdx l.length
                  ((i : ℤ) + (k : ℤ) - (gaussRadius : ℤ))) 0)).sum := by
        refine List.sum_le_sum ?_
        intro k hk
        exact mul_le_mul_of_nonneg_left ((hval k hk).1) (gaussWeights_getD_nonneg k)
      have heq : ((List.range (2 * gaussRadius + 1)).map
          (fun k => gaussWeights.getD k 0 * lo)).sum = lo := by
        rw [List.sum_map_mul_right, hsum1, one_mul]
      linarith
    · have hhigh : ((List.range (2 * gaussRadius + 1)).map
          (fun k => gaussWeights.getD k 0
            * l.getD (reflectIdx l.length
                ((i : ℤ) + (k : ℤ) - (gaussRadius : ℤ))) 0)).sum
          ≤ ((List.range (2 * gaussRadius + 1)).map
            (fun k => gaussWeights.getD k 0 * hi)).sum := by
        refine List.sum_le_sum ?_
        intro k hk
        exact mul_le_mul_of_nonneg_left ((hval k hk).2) (gaussWeights_getD_nonneg k)
      have heq : ((List.range (2 * gaussRadius + 1)).map
          (fun k => gaussWeights.getD k 0 * hi)).sum = hi := by
        rw [List.sum_map_mul_right, hsum1, one_mul]
      linarith

theorem getD_zipWith_mul (l1 : List ℝ) :
    ∀ (l2 : List ℝ) (i : ℕ), l1.length = l2.length →
    (List.zipWith (· * ·) l1 l2).getD i 0 = l1.getD i 0 * l2.getD i 0 := by
  induction l1 with
  | nil =>
    intro l2 i hlen
    have h2 : l2 = [] := List.length_eq_zero.mp hlen.symm
    subst h2
    simp
  | cons a t1 ih =>
    intro l2 i hlen
    match l2 with
    | [] => simp at hlen
    | b :: t2 =>
      match i with
      | 0 => simp
      | Nat.succ j =>
        rw [List.zipWith_cons_cons, List.getD_cons_succ, List.getD_cons_succ,
          List.getD_cons_succ]
        exact ih t2 j (by simpa using hlen)

/-- C10: for every strength in `[0,1]`, every gain of the (smoothed)
sidechain envelope lies in `[1 − strength, 1]` — the attack ramps, the
exponential release segments, and the Gaussian-smoothed result (a convex
combination of envelope values) — hence the sidechain never amplifies:
every output sample's magnitude is at most the corresponding input
sample's. -/
theorem claim_C10 (audio : List ℝ) (kick_times : List ℚ) (fs tempo : ℚ)
    (strength : ℝ) (style : String)
    (hs0 : 0 ≤ strength) (hs1 : strength ≤ 1) (hfs : 0 ≤ fs)
    (hk : ∀ t ∈ kick_times, 0 ≤ t) :
    (∀ g ∈ gaussianSmooth (sidechainEnvelope audio.length kick_times fs
        (attackTimeOf style) (releaseTimeOf tempo style)
        (effectiveStrength strength style)),
      1 - strength ≤ g ∧ g ≤ 1) ∧
    (∀ i : ℕ,
      |(apply_sidechain audio kick_times fs tempo strength style).getD i 0|
        ≤ |audio.getD i 0|) := by
  rw [apply_sidechain]
  set s' := effectiveStrength strength style with hsdefeq
  set E := sidechainEnvelope audio.length kick_times fs
    (attackTimeOf style) (releaseTimeOf tempo style) s' with hEdef
  set SM := gaussianSmooth E with hSMdef
  have hsp0 : 0 ≤ s' := by
    rw [hsdefeq, effectiveStrength]
    split_ifs
    · exact hs0
    · nlinarith
  have hsple : s' ≤ strength := by
    rw [hsdefeq, effectiveStrength]
    split_ifs
    · exact le_rfl
    · nlinarith
  have hat0 : 0 ≤ attackTimeOf style := by
    rw [attackTimeOf]
    split_ifs <;> norm_num
  have henv := sidechainEnvelope_bounds audio.length kick_times fs
    (attackTimeOf style) (releaseTimeOf tempo style) s' hsp0 hfs hat0 hk
  have hsm := gaussianSmooth_bounds E (1 - s') 1 henv.2
  have hsm' : ∀ g ∈ SM, 1 - strength ≤ g ∧ g ≤ 1 := by
    intro g hg
    obtain ⟨h1, h2⟩ := hsm.2 g hg
    exact ⟨by linarith, h2⟩
  refine ⟨hsm', ?_⟩
  intro i
  have hlen2 : audio.length = SM.length := by
    rw [hSMdef, hsm.1, henv.1]
  rw [getD_zipWith_mul audio SM i hlen2]
  by_cases hi : i < audio.length
  · have hism : i < SM.length := by omega
    have hgmem : SM.getD i 0 ∈ SM := by
      rw [List.getD_eq_getElem _ _ hism]
      exact List.getElem_mem hism
    obtain ⟨h1, h2⟩ := hsm' _ hgmem
    have hg0 : 0 ≤ SM.getD i 0 := by linarith
    rw [abs_mul]
    calc |audio.getD i 0| * |SM.getD i 0|
        ≤ |audio.getD i 0| * 1 := by
          refine mul_le_mul_of_nonneg_left ?_ (abs_nonneg _)
          rw [abs_of_nonneg hg0]
          exact h2
      _ = |audio.getD i 0| := mul_one _
  · have hzero : SM.getD i 0 = 0 := List.getD_eq_default _ _ (by omega)
    rw [hzero, mul_zero, abs_zero]
    exact abs_nonneg _

/-- Witness for C10: one kick at t = 0, strength 1/2, "pump" style, on the
one-sample buffer `[2]`. -/
theorem claim_C10_witness :
    (∀ g ∈ gaussianSmooth (sidechainEnvelope ([2] : List ℝ).length [0] 1
        (attackTimeOf "pump") (releaseTimeOf 120 "pump")
        (effectiveStrength (1/2) "pump")),
      1 - (1/2 : ℝ) ≤ g ∧ g ≤ 1) ∧
    (∀ i : ℕ, |(apply_sidechain [2] [0] 1 120 (1/2) "pump").getD i 0|
      ≤ |([2] : List ℝ).getD i 0|) :=
  claim_C10 [2] [0] 1 120 (1/2) "pump" (by norm_num) (by norm_num)
    (by norm_num)
    (by
      intro t ht
      rw [List.mem_singleton] at ht
      rw [ht])

/-! ## Timeline Renderer: sample-offset safety (C9)

Each slice-add `audio[start_sample : start_sample + len(wave)] += wave`
(src/main.py lines 645–649, 751–755, 766–789) writes `int(fs·dur)` samples
at `int(t·fs)`; the master buffer has `int(total·fs)` samples
(line 601).  `current_time` before section `i` is the sum of the previous
sections' `bars · bar_duration` (lines 600–607, 791). -/

/-- `current_time` at the start of section `i`. -/
def currentTimeAt (bars : List ℕ) (bar_duration : ℚ) (i : ℕ) : ℚ :=
  ((bars.map (fun b : ℕ => (b : ℚ) * bar_duration)).take i).sum

/-- `total_duration` of the score (src/main.py line 600). -/
def totalDuration (bars : List ℕ) (bar_duration : ℚ) : ℚ :=
  (bars.map (fun b : ℕ => (b : ℚ) * bar_duration)).sum

/-- The slice-add of a wave of duration `d` seconds placed at `t` seconds
stays inside the master buffer: nonnegative start, and
`start_sample + len(wave) ≤ len(audio)`. -/
def writeOK (fs total t d : ℚ) : Prop :=
  0 ≤ t ∧ (pyInt (t * fs)).toNat + (pyInt (fs * d)).toNat
    ≤ (pyInt (total * fs)).toNat

/-- `⌊x⌋ + ⌊y⌋ ≤ ⌊x + y⌋` lifted to the slice-add bound. -/
theorem writeOK_of_le (fs total t d : ℚ) (hfs : 0 ≤ fs) (ht : 0 ≤ t)
    (hd : 0 ≤ d) (hle : t + d ≤ total) : writeOK fs total t d := by
  refine ⟨ht, ?_⟩
  have h1 : 0 ≤ t * fs := mul_nonneg ht hfs
  have h2 : 0 ≤ fs * d := mul_nonneg hfs hd
  have h3 : 0 ≤ total * fs := by nlinarith
  rw [pyInt, if_pos h1, pyInt, if_pos h2, pyInt, if_pos h3]
  have hadd : ⌊t * fs⌋ + ⌊fs * d⌋ ≤ ⌊total * fs⌋ := by
    have ha : (↑(⌊t * fs⌋ + ⌊fs * d⌋) : ℚ) ≤ t * fs + fs * d := by
      push_cast
      exact add_le_add (Int.floor_le _) (Int.floor_le _)
    refine Int.le_floor.mpr (le_trans ha ?_)
    nlinarith
  have f1 : 0 ≤ ⌊t * fs⌋ := Int.floor_nonneg.mpr h1
  have f2 : 0 ≤ ⌊fs * d⌋ := Int.floor_nonneg.mpr h2
  omega

theorem currentTimeAt_nonneg (bars : List ℕ) (bar_duration : ℚ)
    (hbd : 0 ≤ bar_duration) (i : ℕ) :
    0 ≤ currentTimeAt bars bar_duration i := by
  refine List.sum_nonneg ?_
  intro x hx
  have hx' : x ∈ bars.map (fun b : ℕ => (b : ℚ) * bar_duration) :=
    (List.take_sublist _ _).mem hx
  rw [List.mem_map] at hx'
  obtain ⟨b, _, rfl⟩ := hx'
  positivity

theorem currentTimeAt_add_le (bars : List ℕ) (bar_duration : ℚ)
    (hbd : 0 ≤ bar_duration) {i : ℕ} (hi : i < bars.length) :
    currentTimeAt bars bar_duration i + (bars.getD i 0 : ℚ) * bar_duration
      ≤ totalDuration bars bar_duration := by
  have hmi : i < (bars.map (fun b : ℕ => (b : ℚ) * bar_duration)).length := by
    rw [List.length_map]
    exact hi
  have hstep := List.sum_take_succ
    (bars.map (fun b : ℕ => (b : ℚ) * bar_duration)) i hmi
  have hget : (bars.map (fun b : ℕ => (b : ℚ) * bar_duration))[i]
      = (bars.getD i 0 : ℚ) * bar_duration := by
    rw [List.getElem_map, List.getD_eq_getElem _ _ hi]
  have htot : ((bars.map (fun b : ℕ => (b : ℚ) * bar_duration)).take (i + 1)).sum
      ≤ totalDuration bars bar_duration := by
    rw [totalDuration]
    conv_rhs => rw [← List.take_append_drop (i + 1)
      (bars.map (fun b : ℕ => (b : ℚ) * bar_duration))]
    rw [List.sum_append]
    have hdrop : 0 ≤ ((bars.map (fun b : ℕ => (b : ℚ) * bar_duration)).drop
        (i + 1)).sum := by
      refine List.sum_nonneg ?_
      intro x hx
      have hx' : x ∈ bars.map (fun b : ℕ => (b : ℚ) * bar_duration) :=
        (List.drop_sublist _ _).mem hx
      rw [List.mem_map] at hx'
      obtain ⟨b, _, rfl⟩ := hx'
      positivity
    linarith
  rw [currentTimeAt]
  rw [hstep, hget] at htot
  exact htot

theorem cyclicDur_nonneg (durs : List ℚ) (h : ∀ d ∈ durs, 0 ≤ d) (n : ℕ) :
    0 ≤ cyclicDur durs n := by
  by_cases hne : durs = []
  · subst hne
    rfl
  · exact h _ (cyclicDur_mem hne n)

theorem posAfter_nonneg (durs : List ℚ) (beat_duration : ℚ)
    (h : ∀ d ∈ durs, 0 ≤ d) (hbd : 0 ≤ beat_duration) (n : ℕ) :
    0 ≤ posAfter durs beat_duration n := by
  induction n with
  | zero => exact le_rfl
  | succ n ih =>
    rw [posAfter]
    have := mul_nonneg (cyclicDur_nonneg durs h n) hbd
    linarith

/-- C9: every additive accumulation into the master buffer stays in
bounds — drum hits at `currentTime + bar·barDuration + beat·beatDuration`
with half-beat waves, melodic notes at `currentTime + pos` with clipped
durations, section FX waves of a full section, and the two-beat impact —
all start at a sample ≥ 0 and end at
`start_sample + len(wave) ≤ len(master)`, because
`⌊x⌋ + ⌊y⌋ ≤ ⌊x + y⌋` and event end times never exceed the total
duration.  Here `60 / tempo` is the beat duration and `60 / tempo * 4` the
bar duration. -/
theorem claim_C9 (bars : List ℕ) (tempo fs : ℚ)
    (htempo : 0 < tempo) (hfs : 0 ≤ fs) :
    (∀ i bar beat : ℕ, i < bars.length → bar < bars.getD i 0 → beat < 4 →
      writeOK fs (totalDuration bars (60 / tempo * 4))
        (currentTimeAt bars (60 / tempo * 4) i
          + (bar : ℚ) * (60 / tempo * 4) + (beat : ℚ) * (60 / tempo))
        (60 / tempo * (1/2))) ∧
    (∀ i : ℕ, i < bars.length → ∀ durs : List ℚ, (∀ d ∈ durs, 0 < d) →
      ∀ n : ℕ,
      posAfter durs (60 / tempo) n < (bars.getD i 0 : ℚ) * (60 / tempo * 4) →
      writeOK fs (totalDuration bars (60 / tempo * 4))
        (currentTimeAt bars (60 / tempo * 4) i + posAfter durs (60 / tempo) n)
        (clippedDur durs (60 / tempo)
          ((bars.getD i 0 : ℚ) * (60 / tempo * 4)) n)) ∧
    (∀ i : ℕ, i < bars.length →
      writeOK fs (totalDuration bars (60 / tempo * 4))
        (currentTimeAt bars (60 / tempo * 4) i)
        ((bars.getD i 0 : ℚ) * (60 / tempo * 4))) ∧
    (∀ i : ℕ, i < bars.length → 1 ≤ bars.getD i 0 →
      writeOK fs (totalDuration bars (60 / tempo * 4))
        (currentTimeAt bars (60 / tempo * 4) i) (60 / tempo * 2)) := by
  have hbd : 0 < 60 / tempo := div_pos (by norm_num) htempo
  have hbar : (0:ℚ) ≤ 60 / tempo * 4 := by positivity
  refine ⟨?_, ?_, ?_, ?_⟩
  · intro i bar beat hi hbarlt hbeat
    have hct0 := currentTimeAt_nonneg bars (60 / tempo * 4) hbar i
    have hcta := currentTimeAt_add_le bars (60 / tempo * 4) hbar hi
    have hb1 : (bar : ℚ) + 1 ≤ (bars.getD i 0 : ℚ) := by exact_mod_cast hbarlt
    have hb3 : (beat : ℚ) ≤ 3 := by
      have : beat ≤ 3 := by omega
      exact_mod_cast this
    refine writeOK_of_le _ _ _ _ hfs ?_ (by positivity) ?_
    · have h1 : (0:ℚ) ≤ (bar : ℚ) * (60 / tempo * 4) := by positivity
      have h2 : (0:ℚ) ≤ (beat : ℚ) * (60 / tempo) := by positivity
      linarith
    · have hkey : (bar : ℚ) * (60 / tempo * 4) + (beat : ℚ) * (60 / tempo)
          + 60 / tempo * (1/2) ≤ (bars.getD i 0 : ℚ) * (60 / tempo * 4) := by
        nlinarith [hbd.le, mul_le_mul_of_nonneg_right hb1 hbar,
          mul_le_mul_of_nonneg_right hb3 hbd.le]
      linarith
  · intro i hi durs hdurs n hpos
    have hct0 := currentTimeAt_nonneg bars (60 / tempo * 4) hbar i
    have hcta := currentTimeAt_add_le bars (60 / tempo * 4) hbar hi
    have hp0 := posAfter_nonneg durs (60 / tempo)
      (fun d hd => (hdurs d hd).le) hbd.le n
    rw [clippedDur]
    split_ifs with hclip
    · refine writeOK_of_le _ _ _ _ hfs (by linarith) (by linarith) ?_
      linarith
    · push_neg at hclip
      have hnd0 : 0 ≤ cyclicDur durs n * (60 / tempo) :=
        mul_nonneg (cyclicDur_nonneg durs (fun d hd => (hdurs d hd).le) n) hbd.le
      refine writeOK_of_le _ _ _ _ hfs (by linarith) hnd0 ?_
      linarith
  · intro i hi
    have hct0 := currentTimeAt_nonneg bars (60 / tempo * 4) hbar i
    have hcta := currentTimeAt_add_le bars (60 / tempo * 4) hbar hi
    exact writeOK_of_le _ _ _ _ hfs hct0 (by positivity) hcta
  · intro i hi hone
    have hct0 := currentTimeAt_nonneg bars (60 / tempo * 4) hbar i
    have hcta := currentTimeAt_add_le bars (60 / tempo * 4) hbar hi
    have hone' : (1:ℚ) ≤ (bars.getD i 0 : ℚ) := by exact_mod_cast hone
    refine writeOK_of_le _ _ _ _ hfs hct0 (by positivity) ?_
    have h2 : 60 / tempo * 2 ≤ (bars.getD i 0 : ℚ) * (60 / tempo * 4) := by
      nlinarith [hbd.le]
    linarith

/-- Witness for C9 at a one-section, one-bar score (tempo 120, fs 2):
the first kick hit of the first bar is written in bounds. -/
theorem claim_C9_witness :
    writeOK 2 (totalDuration [1] (60 / 120 * 4))
      (currentTimeAt [1] (60 / 120 * 4) 0
        + (0 : ℚ) * (60 / 120 * 4) + (0 : ℚ) * (60 / 120))
      (60 / 120 * (1/2)) :=
  (claim_C9 [1] 120 2 (by norm_num) (by norm_num)).1 0 0 0
    (by norm_num) (by norm_num) (by norm_num)
